import Mathlib

/-!
Verification development for the Map Storage Manager (`storage/storage.hpp`).
The repository ships only the header `storage/storage.hpp`, so the operations
declared there are modelled from the specification's description of their
behaviour; each such definition carries a doc comment saying what was modelled.
-/

namespace storage

/-- Country node identifier (`TCountryId`): an opaque string; the empty string
is the root sentinel ("no parent"). -/
abbrev TCountryId := String

/-- Modelled from the spec: the `MapOptions` flag set (declared in the missing
`storage_defines.hpp`); subsets drawn from `{∅, Map, CarRouting, Map|CarRouting}`. -/
structure MapOptions where
  map : Bool
  carRouting : Bool
deriving DecidableEq

/-- The empty option set (`MapOptions::Nothing`). -/
def MapOptions.nothing : MapOptions := ⟨false, false⟩

/-- The singleton set `MapOptions::Map`. -/
def MapOptions.mapOnly : MapOptions := ⟨true, false⟩

/-- The singleton set `MapOptions::CarRouting`. -/
def MapOptions.carRoutingOnly : MapOptions := ⟨false, true⟩

/-- Union of two option sets (`SetOptions`). -/
def MapOptions.union (a b : MapOptions) : MapOptions :=
  ⟨a.map || b.map, a.carRouting || b.carRouting⟩

/-- Modelled from the spec: `platform::LocalCountryFile` (the platform layer is
missing from the sources) — a specific on-disk materialization: directory,
file name, version (an integer timestamp), and which `MapOptions` are present. -/
structure LocalCountryFile where
  directory : String
  name : String
  version : Int
  hasMap : Bool
  hasCarRouting : Bool
deriving DecidableEq

/-- Whether the on-disk file carries the given option. -/
def LocalCountryFile.onDisk (f : LocalCountryFile) (o : MapOptions) : Bool :=
  (!o.map || f.hasMap) && (!o.carRouting || f.hasCarRouting)

/-- Modelled from the spec: `QueuedCountry` (its header is missing from the
sources) — id, requested `MapOptions`, the current file being downloaded
within that set, and an error count. -/
structure QueuedCountry where
  countryId : TCountryId
  options : MapOptions
  current : MapOptions
  errorsCount : Nat
deriving DecidableEq

/-- The mutable state of `Storage`: the current data version `m_currentVersion`,
the download queue `m_queue`, the failed set `m_failedCountries`, the local file
registry `m_localFiles`, the fake-unit registry `m_localFilesForFakeCountries`
(keyed by file name) and the aggregate progress pair `m_countryProgress`. -/
structure StorageState where
  currentVersion : Int
  queue : List QueuedCountry
  failedCountries : List TCountryId
  localFiles : TCountryId → List LocalCountryFile
  localFilesForFakeCountries : List (String × LocalCountryFile)
  countryProgress : Int × Int

/-- The empty storage state at data version `v`. -/
def initialState (v : Int) : StorageState :=
  { currentVersion := v
    queue := []
    failedCountries := []
    localFiles := fun _ => []
    localFilesForFakeCountries := []
    countryProgress := (0, 0) }

/-- Returns true when the country is in the downloader's queue
(`Storage::IsCountryInQueue`). -/
def IsCountryInQueue (s : StorageState) (id : TCountryId) : Bool :=
  s.queue.any (fun q => decide (q.countryId = id))

/-- Returns true when the country is first in the downloader's queue
(`Storage::IsCountryFirstInQueue`): only the head unit is actively downloading. -/
def IsCountryFirstInQueue (s : StorageState) (id : TCountryId) : Bool :=
  match s.queue with
  | [] => false
  | q :: _ => decide (q.countryId = id)

/-- Download is in progress iff the queue is nonempty
(`Storage::IsDownloadInProgress`). -/
def IsDownloadInProgress (s : StorageState) : Bool :=
  !s.queue.isEmpty

/-- Id of the currently downloading country, the root sentinel when idle
(`Storage::GetCurrentDownloadingCountryIndex`). -/
def GetCurrentDownloadingCountryIndex (s : StorageState) : TCountryId :=
  match s.queue with
  | [] => ""
  | q :: _ => q.countryId

/-- Modelled from the spec: `Storage::GetLatestLocalFile` — the registry list is
kept sorted newest-first, and this query returns its head. -/
def GetLatestLocalFile (s : StorageState) (id : TCountryId) : Option LocalCountryFile :=
  (s.localFiles id).head?

/-- Whether the given single option is already on disk at the current data
version for `id` (consulting the latest local file). -/
def optionUpToDate (s : StorageState) (id : TCountryId) (o : MapOptions) : Bool :=
  match GetLatestLocalFile s id with
  | none => false
  | some f => f.onDisk o && decide (f.version = s.currentVersion)

/-- Modelled from the spec: `Storage::NormalizeDownloadFileSet` — always adds a
map file when the routing file is requested for downloading, but drops all
already downloaded and up-to-date files (checked, in the canonical order Map
then CarRouting, against the latest local file). -/
def NormalizeDownloadFileSet (s : StorageState) (id : TCountryId)
    (options : MapOptions) : MapOptions :=
  let o1 : MapOptions :=
    if options.carRouting then { options with map := true } else options
  let o2 : MapOptions :=
    if o1.map && optionUpToDate s id MapOptions.mapOnly then
      { o1 with map := false }
    else o1
  if o2.carRouting && optionUpToDate s id MapOptions.carRoutingOnly then
    { o2 with carRouting := false }
  else o2

/-- Modelled from the spec: `Storage::NormalizeDeleteFileSet` — always marks
the routing file for removal when the map file is marked for deletion. -/
def NormalizeDeleteFileSet (options : MapOptions) : MapOptions :=
  if options.map then { options with carRouting := true } else options

/-- The first file of a requested option set in the canonical download order
(Map then CarRouting). -/
def firstFileOf (options : MapOptions) : MapOptions :=
  if options.map then MapOptions.mapOnly else MapOptions.carRoutingOnly

/-- Insert a country id into the failed set (`set<TCountryId>::insert`). -/
def insertId (id : TCountryId) (l : List TCountryId) : List TCountryId :=
  if id ∈ l then l else id :: l

/-- Modelled from the spec: versioned insertion into the registry list of one
country — keeps the list sorted newest-first; if map files of the same version
were already registered, does nothing. -/
def insertByVersion (f : LocalCountryFile) :
    List LocalCountryFile → List LocalCountryFile
  | [] => [f]
  | g :: gs =>
    if f.version > g.version then f :: g :: gs
    else if f.version = g.version then g :: gs
    else g :: insertByVersion f gs

/-- Modelled from the spec: `Storage::RegisterCountryFiles` — versioned
insertion of a disk file into the registry list of `id`. -/
def RegisterCountryFiles (s : StorageState) (id : TCountryId)
    (f : LocalCountryFile) : StorageState :=
  { s with localFiles := fun i =>
      if i = id then insertByVersion f (s.localFiles i) else s.localFiles i }

/-- Modelled from the spec: `Storage::RegisterFakeCountryFiles` — registers a
user-custom or World file in the fake registry only. -/
def RegisterFakeCountryFiles (s : StorageState) (f : LocalCountryFile) :
    StorageState :=
  { s with localFilesForFakeCountries := (f.name, f) :: s.localFilesForFakeCountries }

/-- Remove the options marked for deletion from one on-disk version; when the
whole map file goes, the version is dropped from the registry by the caller. -/
def removeOptionsFromFile (o : MapOptions) (f : LocalCountryFile) : LocalCountryFile :=
  { f with hasMap := f.hasMap && !o.map, hasCarRouting := f.hasCarRouting && !o.carRouting }

/-- Remove the options marked for deletion from every version in a registry
list, dropping versions that retain no options. -/
def deleteOptionsFromList (o : MapOptions) (l : List LocalCountryFile) :
    List LocalCountryFile :=
  (l.map (removeOptionsFromFile o)).filter (fun f => f.hasMap || f.hasCarRouting)

/-- Modelled from the spec: `Storage::DeleteCountryFiles` — removes the
specified options from every on-disk version of the unit; versions retaining
no options disappear from the registry. -/
def DeleteCountryFiles (s : StorageState) (id : TCountryId) (o : MapOptions) :
    StorageState :=
  { s with localFiles := fun i =>
      if i = id then deleteOptionsFromList o (s.localFiles i) else s.localFiles i }

/-- Modelled from the spec: `Storage::DeleteFromDownloader` — removes the unit
from the queue; if the head is affected the active download is aborted and the
progress counters are reset. -/
def DeleteFromDownloader (s : StorageState) (id : TCountryId) : StorageState :=
  { s with
    queue := s.queue.filter (fun q => decide (q.countryId ≠ id))
    countryProgress :=
      if IsCountryFirstInQueue s id then (0, 0) else s.countryProgress }

/-- Modelled from the spec: `Storage::DeleteCountry` — remove from the queue if
present, then delete the local file versions, applying delete-set
normalization (Map implies also CarRouting). -/
def DeleteCountry (s : StorageState) (id : TCountryId) (o : MapOptions) :
    StorageState :=
  DeleteCountryFiles (DeleteFromDownloader s id) id (NormalizeDeleteFileSet o)

/-- Modelled from the spec: `Storage::DownloadCountry` — normalization is
applied at enqueue and empty requests are elided; if the id is already queued
the options are unioned; otherwise the id leaves the failed set and is
appended, and when it becomes the head its download starts. -/
def DownloadCountry (s : StorageState) (id : TCountryId) (options : MapOptions) :
    StorageState :=
  if NormalizeDownloadFileSet s id options = MapOptions.nothing then s
  else if IsCountryInQueue s id then
    { s with queue := s.queue.map (fun q =>
        if q.countryId = id then
          { q with options := q.options.union (NormalizeDownloadFileSet s id options) }
        else q) }
  else
    { s with
      queue := s.queue ++
        [⟨id, NormalizeDownloadFileSet s id options,
          firstFileOf (NormalizeDownloadFileSet s id options), 0⟩]
      failedCountries := s.failedCountries.erase id
      countryProgress := if s.queue.isEmpty then (0, 0) else s.countryProgress }

/-- Modelled from the spec: successful completion of the head unit — the
downloaded files are registered at the current data version, the unit is
popped, progress resets, and the next unit starts. -/
def OnMapDownloadFinishedSuccess (s : StorageState) (q : QueuedCountry)
    (rest : List QueuedCountry) : StorageState :=
  { s with
    queue := rest
    localFiles := fun i =>
      if i = q.countryId then
        insertByVersion
          ⟨"", q.countryId, s.currentVersion, q.options.map, q.options.carRouting⟩
          (s.localFiles i)
      else s.localFiles i
    countryProgress := (0, 0) }

/-- Modelled from the spec: `Storage::OnMapFileDownloadFinished` — on per-file
success the head advances to its next file or, when done, completes and
registers; on per-file failure the whole unit fails: it is popped, recorded in
the failed set, and the next unit starts. -/
def OnMapFileDownloadFinished (s : StorageState) (success : Bool) : StorageState :=
  match s.queue with
  | [] => s
  | q :: rest =>
    if success then
      if q.current.map && q.options.carRouting then
        { s with queue := { q with current := MapOptions.carRoutingOnly } :: rest }
      else
        OnMapDownloadFinishedSuccess s q rest
    else
      { s with
        queue := rest
        failedCountries := insertId q.countryId s.failedCountries
        countryProgress := (0, 0) }

/-- Modelled from the spec: `Storage::Clear` — clears the local files registry
and the downloader's queue. -/
def Clear (s : StorageState) : StorageState :=
  { s with
    queue := []
    localFiles := fun _ => []
    localFilesForFakeCountries := []
    countryProgress := (0, 0) }

/-- Modelled from the spec: `Storage::SaveDownloadQueue` — persists the ordered
list of queued ids with their requested options. -/
def SaveDownloadQueue (s : StorageState) : List (TCountryId × MapOptions) :=
  s.queue.map (fun q => (q.countryId, q.options))

/-- Modelled from the spec: `Storage::RestoreDownloadQueue` — re-enqueues every
persisted pair in order through `DownloadCountry`, triggering normalization. -/
def RestoreDownloadQueue (s : StorageState)
    (saved : List (TCountryId × MapOptions)) : StorageState :=
  saved.foldl (fun st p => DownloadCountry st p.1 p.2) s

/-- A storage state with the in-memory queue cleared (the middle step of the
save/restore round trip). -/
def clearQueue (s : StorageState) : StorageState :=
  { s with queue := [] }

/-- Error code of `Storage` (`Storage::ErrorCode` in the header). -/
inductive ErrorCode : Type where
  | NoError
  | NotEnoughSpace
  | NoInternetConnection
deriving DecidableEq

/-- Modelled from the spec: the catalog node `Country` (declared in the missing
`country.hpp`) — an immutable tree node with its id and ordered children;
leaves carry the map unit, interior nodes are expandable groups. -/
inductive Country : Type where
  | mk (cid : TCountryId) (children : List Country)

/-- The id of a catalog node. -/
def Country.cid : Country → TCountryId
  | .mk i _ => i

/-- The ordered children of a catalog node. -/
def Country.children : Country → List Country
  | .mk _ cs => cs

mutual

/-- All leaf ids of the catalog subtree rooted at a node, in catalog order. -/
def Country.leaves : Country → List TCountryId
  | .mk i [] => [i]
  | .mk _ (c :: cs) => c.leaves ++ leavesOfForest cs

/-- All leaf ids of a list of sibling subtrees, in catalog order. -/
def leavesOfForest : List Country → List TCountryId
  | [] => []
  | c :: cs => c.leaves ++ leavesOfForest cs

end

mutual

/-- Whether the subtree rooted at a node has a node with the given id
(`Storage::IsCoutryIdInCountryTree`). -/
def Country.contains : Country → TCountryId → Bool
  | .mk i cs, x => decide (i = x) || forestContains cs x

/-- Whether any sibling subtree has a node with the given id. -/
def forestContains : List Country → TCountryId → Bool
  | [], _ => false
  | c :: cs, x => c.contains x || forestContains cs x

end

mutual

/-- Finds the subtree rooted at the node with the given id, if any
(`Storage::CountryByCountryId` resolution). -/
def Country.find (t : Country) (x : TCountryId) : Option Country :=
  match t with
  | .mk i cs => if i = x then some t else forestFind cs x

/-- Finds the subtree rooted at the given id within a list of siblings. -/
def forestFind : List Country → TCountryId → Option Country
  | [], _ => none
  | c :: cs, x =>
    match c.find x with
    | some r => some r
    | none => forestFind cs x

end

mutual

/-- The root-first path of ids from the root of a subtree down to the node
with the given id, if that node is in the subtree. -/
def Country.pathTo (t : Country) (x : TCountryId) : Option (List TCountryId) :=
  match t with
  | .mk i cs =>
    if i = x then some [i]
    else
      match forestPathTo cs x with
      | some p => some (i :: p)
      | none => none

/-- The root-first path to the given id within a list of sibling subtrees. -/
def forestPathTo : List Country → TCountryId → Option (List TCountryId)
  | [], _ => none
  | c :: cs, x =>
    match c.pathTo x with
    | some p => some p
    | none => forestPathTo cs x

end

mutual

/-- Whether the node with id `p` has, somewhere in the subtree, a direct child
with id `c` (the parent-index relation of the flat catalog representation). -/
def Country.isParentOf : Country → TCountryId → TCountryId → Bool
  | .mk i cs, p, c =>
    (decide (i = p) && cs.any (fun t => decide (t.cid = c))) || forestIsParentOf cs p c

/-- The parent relation searched through a list of sibling subtrees. -/
def forestIsParentOf : List Country → TCountryId → TCountryId → Bool
  | [], _, _ => false
  | t :: ts, p, c => t.isParentOf p c || forestIsParentOf ts p c

end

/-- Leaf ids of the catalog subtree under a given id (empty when the id is not
in the catalog). -/
def leavesUnder (cat : Country) (id : TCountryId) : List TCountryId :=
  match cat.find id with
  | none => []
  | some t => t.leaves

/-- Whether the registry holds, for this real country, a local version whose
`MapOptions` include `Map`. -/
def hasDownloadedMap (s : StorageState) (id : TCountryId) : Bool :=
  (s.localFiles id).any (fun f => f.hasMap)

/-- Modelled from the spec: `Storage::IsNodeDownloaded` — true iff the id is in
the catalog and every leaf under it has a local version including `Map`; fake
units live only in `m_localFilesForFakeCountries` and are never consulted. -/
def IsNodeDownloaded (cat : Country) (s : StorageState) (id : TCountryId) : Bool :=
  match cat.find id with
  | none => false
  | some t => t.leaves.all (fun l => hasDownloadedMap s l)

/-- The leaves under a direct child that contain a downloaded mwm. -/
def downloadedLeavesIn (s : StorageState) (c : Country) : List TCountryId :=
  c.leaves.filter (fun l => hasDownloadedMap s l)

/-- Modelled from the spec: the contribution of one direct child to
`GetDownloadedChildren` — its own id when it contains two or more downloaded
mwms, the single mwm id when it contains exactly one, nothing otherwise. -/
def downloadedChildEntry (s : StorageState) (c : Country) : List TCountryId :=
  match downloadedLeavesIn s c with
  | [] => []
  | [x] => [x]
  | _ :: _ :: _ => [c.cid]

/-- Modelled from the spec: `Storage::GetDownloadedChildren` — fills the result
from the direct children of `parent` according to `downloadedChildEntry`;
only real maps written in countries.txt can appear. -/
def GetDownloadedChildren (cat : Country) (s : StorageState)
    (parent : TCountryId) : List TCountryId :=
  match cat.find parent with
  | none => []
  | some t => t.children.flatMap (downloadedChildEntry s)

/-- Modelled from the spec: the country status enumeration `TStatus`
(declared in the missing `storage_defines.hpp`). -/
inductive TStatus : Type where
  | OnDisk
  | NotDownloaded
  | OnDiskOutOfDate
  | DownloadFailed
  | InQueue
  | Downloading
  | Unknown
deriving DecidableEq

/-- The reporting precedence of statuses: Downloading > InQueue >
DownloadFailed > OutOfDate > NotDownloaded > OnDisk. -/
def statusPriority : TStatus → Nat
  | .OnDisk => 0
  | .NotDownloaded => 1
  | .OnDiskOutOfDate => 2
  | .DownloadFailed => 3
  | .InQueue => 4
  | .Downloading => 5
  | .Unknown => 6

/-- The higher-precedence of two statuses (the earlier one on ties). -/
def maxStatus (a b : TStatus) : TStatus :=
  if statusPriority a < statusPriority b then b else a

/-- Aggregation of leaf statuses for an expandable node: the
highest-precedence status, `OnDisk` when every leaf is `OnDisk`. -/
def aggregateStatuses (l : List TStatus) : TStatus :=
  l.foldl maxStatus TStatus.OnDisk

/-- Lookup of a fake unit (user-custom map, World, WorldCoasts) by name in
`m_localFilesForFakeCountries`. -/
def findFakeFile (s : StorageState) (id : TCountryId) : Option LocalCountryFile :=
  match s.localFilesForFakeCountries.find? (fun p => decide (p.1 = id)) with
  | some p => some p.2
  | none => none

/-- Modelled from the spec: `Storage::CountryStatusEx` for a single unit — the
head of the queue is `Downloading`, a queued non-head is `InQueue`, then the
failed set, then the registry (out of date when the latest local version is
strictly below the current data version); ids neither in the catalog nor fake
are `Unknown`. -/
def CountryStatusEx (cat : Country) (s : StorageState) (id : TCountryId) : TStatus :=
  if cat.contains id then
    if IsCountryFirstInQueue s id then .Downloading
    else if IsCountryInQueue s id then .InQueue
    else if id ∈ s.failedCountries then .DownloadFailed
    else
      match GetLatestLocalFile s id with
      | none => .NotDownloaded
      | some f => if f.version < s.currentVersion then .OnDiskOutOfDate else .OnDisk
  else
    match findFakeFile s id with
    | some f => if f.version < s.currentVersion then .OnDiskOutOfDate else .OnDisk
    | none => .Unknown

/-- Modelled from the spec: the status reported for a node by
`GetClientNodeAttrs` — a leaf reports its own status, an expandable interior
node reports the aggregation of its leaves' statuses. -/
def NodeStatus (cat : Country) (s : StorageState) (id : TCountryId) : TStatus :=
  match cat.find id with
  | none => CountryStatusEx cat s id
  | some (.mk _ []) => CountryStatusEx cat s id
  | some t => aggregateStatuses (t.leaves.map (CountryStatusEx cat s))

/-- The notification chain of a status change: the node itself first, then
every ancestor root-ward. -/
def selfToRootChain (cat : Country) (id : TCountryId) : List TCountryId :=
  match cat.pathTo id with
  | some p => p.reverse
  | none => []

/-- Modelled from the spec: `Storage::NotifyStatusChanged` — fires the status
callback of every subscriber for the id and for every ancestor up to the root,
self first and then root-ward; the result is the trace of
(subscriber, notified id) events. -/
def NotifyStatusChanged (cat : Country) (cbs : List Nat) (id : TCountryId) :
    List (Nat × TCountryId) :=
  (selfToRootChain cat id).flatMap (fun n => cbs.map (fun c => (c, n)))

/-- Modelled from the spec: error notification — `m_onError` fires for every
subscriber, only for the originating id. -/
def NotifyError (cbs : List Nat) (id : TCountryId) (e : ErrorCode) :
    List (Nat × TCountryId × ErrorCode) :=
  cbs.map (fun c => (c, id, e))

/-- The ids currently in the download queue, in order. -/
def queueIds (s : StorageState) : List TCountryId :=
  s.queue.map QueuedCountry.countryId

/-- One public operation of the Coordinator (the operations that mutate the
queue, the failed set or the registries). -/
inductive Step : StorageState → StorageState → Prop
  | download (s : StorageState) (id : TCountryId) (o : MapOptions) :
      Step s (DownloadCountry s id o)
  | removeFromDownloader (s : StorageState) (id : TCountryId) :
      Step s (DeleteFromDownloader s id)
  | deleteCountry (s : StorageState) (id : TCountryId) (o : MapOptions) :
      Step s (DeleteCountry s id o)
  | fileFinished (s : StorageState) (b : Bool) :
      Step s (OnMapFileDownloadFinished s b)
  | registerFiles (s : StorageState) (id : TCountryId) (f : LocalCountryFile) :
      Step s (RegisterCountryFiles s id f)
  | registerFake (s : StorageState) (f : LocalCountryFile) :
      Step s (RegisterFakeCountryFiles s f)
  | clearAll (s : StorageState) : Step s (Clear s)

/-- States reachable from a fresh storage through public operations. -/
inductive Reachable : StorageState → Prop
  | init (v : Int) : Reachable (initialState v)
  | step {s s' : StorageState} : Reachable s → Step s s' → Reachable s'

/-- The invariants maintained by every public operation: the queue holds no
duplicate ids, the failed set is a set, the queue and the failed set are
disjoint, and every registry list is strictly decreasing by version. -/
structure Inv (s : StorageState) : Prop where
  nodupQueue : (queueIds s).Nodup
  nodupFailed : s.failedCountries.Nodup
  disjointQF : ∀ q ∈ s.queue, q.countryId ∉ s.failedCountries
  sortedReg : ∀ id, (s.localFiles id).Pairwise (fun a b => b.version < a.version)

/-! Concrete sample data used by the witnesses. -/

/-- A small catalog: the root has an expandable group Algeria with two leaf
mwms and a single-mwm country Andorra. -/
def sampleCatalog : Country :=
  .mk "Countries"
    [.mk "Algeria" [.mk "Algeria_Central" [], .mk "Algeria_Coast" []],
     .mk "Andorra" []]

/-- A local map file for the Algeria_Central leaf at version 100. -/
def sampleFileCentral : LocalCountryFile :=
  ⟨"maps", "Algeria_Central", 100, true, false⟩

/-- A local map file for the Algeria_Coast leaf at version 100. -/
def sampleFileCoast : LocalCountryFile :=
  ⟨"maps", "Algeria_Coast", 100, true, true⟩

/-- A fresh storage with Algeria enqueued. -/
def wsOne : StorageState :=
  DownloadCountry (initialState 100) "Algeria" MapOptions.mapOnly

/-- A storage with Algeria downloading and Andorra queued behind it. -/
def wsTwo : StorageState :=
  DownloadCountry wsOne "Andorra" MapOptions.mapOnly

/-- The storage after the head unit of `wsTwo` failed to download a file. -/
def wsFailed : StorageState :=
  OnMapFileDownloadFinished wsTwo false

/-- A fresh storage with one registered local map file. -/
def wsReg : StorageState :=
  RegisterCountryFiles (initialState 100) "Algeria_Central" sampleFileCentral

/-- A storage with both Algeria leaves registered on disk. -/
def wsRegBoth : StorageState :=
  RegisterCountryFiles wsReg "Algeria_Coast" sampleFileCoast

/-- A fresh storage with the leaf Algeria_Central downloading. -/
def wsLeafDownloading : StorageState :=
  DownloadCountry (initialState 100) "Algeria_Central" MapOptions.mapOnly

/-- A storage whose Algeria_Central map file is on disk at the current data
version — the input refuting the literal reading of the normalization claim. -/
def cexState : StorageState :=
  { initialState 100 with
    localFiles := fun i =>
      if i = "Algeria_Central" then [⟨"maps", "Algeria_Central", 100, true, false⟩]
      else [] }

/-! Lemmas about the catalog tree. -/

theorem Country.leaves_ne_nil : ∀ (t : Country), t.leaves ≠ []
  | .mk i [] => by simp [Country.leaves]
  | .mk i (c :: cs) => by
    have h := Country.leaves_ne_nil c
    rw [Country.leaves]
    intro hc
    rw [List.append_eq_nil] at hc
    exact h hc.1

mutual

theorem Country.leaves_mem_contains : ∀ (t : Country) (x : TCountryId),
    x ∈ t.leaves → t.contains x = true
  | .mk i [], x, h => by
    simp [Country.leaves] at h
    simp [Country.contains, h]
  | .mk i (c :: cs), x, h => by
    rw [Country.leaves, List.mem_append] at h
    rw [Country.contains, Bool.or_eq_true, forestContains, Bool.or_eq_true]
    rcases h with h | h
    · exact Or.inr (Or.inl (Country.leaves_mem_contains c x h))
    · exact Or.inr (Or.inr (leaves_mem_forestContains cs x h))

theorem leaves_mem_forestContains : ∀ (l : List Country) (x : TCountryId),
    x ∈ leavesOfForest l → forestContains l x = true
  | [], x, h => by simp [leavesOfForest] at h
  | c :: cs, x, h => by
    rw [leavesOfForest, List.mem_append] at h
    rw [forestContains, Bool.or_eq_true]
    rcases h with h | h
    · exact Or.inl (Country.leaves_mem_contains c x h)
    · exact Or.inr (leaves_mem_forestContains cs x h)

end

mutual

theorem Country.find_contains : ∀ (t r : Country) (p x : TCountryId),
    t.find p = some r → r.contains x = true → t.contains x = true
  | .mk i cs, r, p, x, hf, hc => by
    rw [Country.find] at hf
    by_cases hip : i = p
    · rw [if_pos hip] at hf
      cases hf
      exact hc
    · rw [if_neg hip] at hf
      rw [Country.contains, Bool.or_eq_true]
      exact Or.inr (forestFind_contains cs r p x hf hc)

theorem forestFind_contains : ∀ (l : List Country) (r : Country) (p x : TCountryId),
    forestFind l p = some r → r.contains x = true → forestContains l x = true
  | [], r, p, x, hf, _ => by simp [forestFind] at hf
  | c :: cs, r, p, x, hf, hc => by
    rw [forestFind] at hf
    rw [forestContains, Bool.or_eq_true]
    cases hcf : c.find p with
    | some r2 =>
      simp only [hcf] at hf
      cases hf
      exact Or.inl (Country.find_contains c r p x hcf hc)
    | none =>
      simp only [hcf] at hf
      exact Or.inr (forestFind_contains cs r p x hf hc)

end

mutual

theorem Country.contains_eq_find_isSome : ∀ (t : Country) (x : TCountryId),
    t.contains x = (t.find x).isSome
  | .mk i cs, x => by
    rw [Country.contains, Country.find]
    by_cases hix : i = x
    · simp [hix]
    · rw [if_neg hix]
      simp only [hix, decide_eq_true_eq, Bool.or_eq_true, false_or, decide_eq_false hix,
        Bool.false_or]
      exact forestContains_eq_find_isSome cs x

theorem forestContains_eq_find_isSome : ∀ (l : List Country) (x : TCountryId),
    forestContains l x = (forestFind l x).isSome
  | [], x => by simp [forestContains, forestFind]
  | c :: cs, x => by
    rw [forestContains, forestFind]
    rw [Country.contains_eq_find_isSome c x, forestContains_eq_find_isSome cs x]
    cases c.find x <;> simp

end

theorem Country.contains_self : ∀ (t : Country), t.contains t.cid = true
  | .mk i cs => by simp [Country.contains, Country.cid]

theorem forestContains_of_mem : ∀ (l : List Country) (c : Country) (x : TCountryId),
    c ∈ l → c.contains x = true → forestContains l x = true
  | [], c, x, hm, _ => by simp at hm
  | d :: ds, c, x, hm, hc => by
    rw [forestContains, Bool.or_eq_true]
    rcases List.mem_cons.mp hm with rfl | hm
    · exact Or.inl hc
    · exact Or.inr (forestContains_of_mem ds c x hm hc)

theorem Country.isParentOf_of_forest (i : TCountryId) (cs : List Country)
    (a b : TCountryId) (h : forestIsParentOf cs a b = true) :
    (Country.mk i cs).isParentOf a b = true := by
  rw [Country.isParentOf, Bool.or_eq_true]
  exact Or.inr h

theorem forestIsParentOf_of_head (c : Country) (cs : List Country) (a b : TCountryId)
    (h : c.isParentOf a b = true) : forestIsParentOf (c :: cs) a b = true := by
  rw [forestIsParentOf, Bool.or_eq_true]
  exact Or.inl h

theorem forestIsParentOf_of_tail (c : Country) (cs : List Country) (a b : TCountryId)
    (h : forestIsParentOf cs a b = true) : forestIsParentOf (c :: cs) a b = true := by
  rw [forestIsParentOf, Bool.or_eq_true]
  exact Or.inr h

theorem Country.isParentOf_child (i : TCountryId) (cs : List Country) (c : Country)
    (hm : c ∈ cs) : (Country.mk i cs).isParentOf i c.cid = true := by
  rw [Country.isParentOf, Bool.or_eq_true]
  refine Or.inl ?_
  rw [Bool.and_eq_true]
  refine ⟨by simp, ?_⟩
  rw [List.any_eq_true]
  exact ⟨c, hm, by simp⟩

mutual

theorem Country.pathTo_spec : ∀ (t : Country) (x : TCountryId) (p : List TCountryId),
    t.pathTo x = some p →
      p.head? = some t.cid ∧ p.getLast? = some x ∧
        List.Chain' (fun a b => t.isParentOf a b = true) p
  | .mk i cs, x, p, h => by
    rw [Country.pathTo] at h
    by_cases hix : i = x
    · rw [if_pos hix] at h
      cases h
      subst hix
      exact ⟨rfl, rfl, List.chain'_singleton i⟩
    · rw [if_neg hix] at h
      cases hfp : forestPathTo cs x with
      | none => simp [hfp] at h
      | some p2 =>
        simp only [hfp] at h
        cases h
        obtain ⟨⟨c, hcm, hch⟩, hlast, hchain⟩ := forestPathTo_spec cs x p2 hfp
        refine ⟨rfl, ?_, ?_⟩
        · cases p2 with
          | nil => simp at hch
          | cons y ys =>
            rw [List.getLast?_cons_cons]
            exact hlast
        · rw [List.chain'_cons']
          constructor
          · intro y hy
            simp only [hch, Option.mem_def, Option.some_inj] at hy
            subst hy
            exact Country.isParentOf_child i cs c hcm
          · exact List.Chain'.imp
              (fun a b hab => Country.isParentOf_of_forest i cs a b hab) hchain

theorem forestPathTo_spec : ∀ (l : List Country) (x : TCountryId) (p : List TCountryId),
    forestPathTo l x = some p →
      (∃ c ∈ l, p.head? = some c.cid) ∧ p.getLast? = some x ∧
        List.Chain' (fun a b => forestIsParentOf l a b = true) p
  | [], x, p, h => by simp [forestPathTo] at h
  | c :: cs, x, p, h => by
    rw [forestPathTo] at h
    cases hc : c.pathTo x with
    | some p2 =>
      simp only [hc, Option.some_inj] at h
      subst h
      obtain ⟨hh, hl, hch⟩ := Country.pathTo_spec c x p2 hc
      exact ⟨⟨c, List.mem_cons_self c cs, hh⟩, hl,
        List.Chain'.imp (fun a b hab => forestIsParentOf_of_head c cs a b hab) hch⟩
    | none =>
      simp only [hc] at h
      obtain ⟨⟨d, hdm, hdh⟩, hl, hch⟩ := forestPathTo_spec cs x p h
      exact ⟨⟨d, List.mem_cons_of_mem c hdm, hdh⟩, hl,
        List.Chain'.imp (fun a b hab => forestIsParentOf_of_tail c cs a b hab) hch⟩

end

/-! Lemmas about status aggregation. -/

theorem statusPriority_le_foldl : ∀ (l : List TStatus) (a : TStatus),
    statusPriority a ≤ statusPriority (l.foldl maxStatus a)
  | [], _ => le_refl _
  | b :: l, a => by
    rw [List.foldl_cons]
    refine le_trans ?_ (statusPriority_le_foldl l (maxStatus a b))
    rw [maxStatus]
    split <;> omega

theorem statusPriority_mem_le_foldl : ∀ (l : List TStatus) (a t : TStatus), t ∈ l →
    statusPriority t ≤ statusPriority (l.foldl maxStatus a)
  | [], _, _, hm => by simp at hm
  | b :: l, a, t, hm => by
    rw [List.foldl_cons]
    rcases List.mem_cons.mp hm with rfl | hm
    · refine le_trans ?_ (statusPriority_le_foldl l (maxStatus a t))
      rw [maxStatus]
      split <;> omega
    · exact statusPriority_mem_le_foldl l (maxStatus a b) t hm

theorem foldl_maxStatus_mem : ∀ (l : List TStatus) (a : TStatus),
    l.foldl maxStatus a = a ∨ l.foldl maxStatus a ∈ l
  | [], _ => Or.inl rfl
  | b :: l, a => by
    rw [List.foldl_cons]
    rcases foldl_maxStatus_mem l (maxStatus a b) with h | h
    · rw [h, maxStatus]
      split
      · exact Or.inr (List.mem_cons_self b l)
      · exact Or.inl rfl
    · exact Or.inr (List.mem_cons_of_mem b h)

theorem statusPriority_injective : ∀ a b : TStatus,
    statusPriority a = statusPriority b → a = b := by
  intro a b h
  cases a <;> cases b <;> first | rfl | simp [statusPriority] at h

theorem countryStatusEx_ne_unknown (cat : Country) (s : StorageState) (id : TCountryId)
    (h : cat.contains id = true) : CountryStatusEx cat s id ≠ TStatus.Unknown := by
  rw [CountryStatusEx, if_pos h]
  split_ifs with h1 h2 h3
  · simp
  · simp
  · simp
  · cases GetLatestLocalFile s id with
    | none => simp
    | some f => by_cases hv : f.version < s.currentVersion <;> simp [hv]

/-! The reachable-state machine and its invariants. -/

theorem isCountryInQueue_iff (s : StorageState) (id : TCountryId) :
    IsCountryInQueue s id = true ↔ id ∈ queueIds s := by
  simp [IsCountryInQueue, queueIds, List.any_eq_true, List.mem_map]

theorem mem_insertId {x a : TCountryId} {l : List TCountryId} :
    x ∈ insertId a l ↔ x = a ∨ x ∈ l := by
  rw [insertId]
  split
  · rename_i hmem
    constructor
    · exact fun h => Or.inr h
    · rintro (rfl | h)
      · exact hmem
      · exact h
  · exact List.mem_cons

theorem nodup_insertId {a : TCountryId} {l : List TCountryId} (h : l.Nodup) :
    (insertId a l).Nodup := by
  rw [insertId]
  split
  · exact h
  · exact List.nodup_cons.mpr ⟨by assumption, h⟩

theorem mem_insertByVersion (f : LocalCountryFile) :
    ∀ (l : List LocalCountryFile) (x : LocalCountryFile),
      x ∈ insertByVersion f l → x = f ∨ x ∈ l
  | [], x, h => by
    simp [insertByVersion] at h
    exact Or.inl h
  | g :: gs, x, h => by
    rw [insertByVersion] at h
    split at h
    · rcases List.mem_cons.mp h with rfl | h2
      · exact Or.inl rfl
      · exact Or.inr h2
    · split at h
      · exact Or.inr h
      · rcases List.mem_cons.mp h with rfl | h2
        · exact Or.inr (List.mem_cons_self _ _)
        · rcases mem_insertByVersion f gs x h2 with rfl | h3
          · exact Or.inl rfl
          · exact Or.inr (List.mem_cons_of_mem _ h3)

theorem pairwise_insertByVersion (f : LocalCountryFile) :
    ∀ (l : List LocalCountryFile),
      l.Pairwise (fun a b => b.version < a.version) →
      (insertByVersion f l).Pairwise (fun a b => b.version < a.version)
  | [], _ => by simp [insertByVersion]
  | g :: gs, h => by
    rw [List.pairwise_cons] at h
    obtain ⟨hg, hgs⟩ := h
    rw [insertByVersion]
    split
    · rename_i hgt
      refine List.pairwise_cons.mpr ⟨?_, List.pairwise_cons.mpr ⟨hg, hgs⟩⟩
      intro x hx
      rcases List.mem_cons.mp hx with rfl | hx
      · omega
      · have := hg x hx
        omega
    · split
      · exact List.pairwise_cons.mpr ⟨hg, hgs⟩
      · rename_i hngt hne
        refine List.pairwise_cons.mpr ⟨?_, pairwise_insertByVersion f gs hgs⟩
        intro x hx
        rcases mem_insertByVersion f gs x hx with rfl | hx
        · omega
        · exact hg x hx

theorem pairwise_deleteOptionsFromList (o : MapOptions) (l : List LocalCountryFile)
    (h : l.Pairwise (fun a b => b.version < a.version)) :
    (deleteOptionsFromList o l).Pairwise (fun a b => b.version < a.version) := by
  rw [deleteOptionsFromList]
  refine List.Pairwise.filter _ ?_
  rw [List.pairwise_map]
  exact h

theorem queueIds_map_preserving (l : List QueuedCountry) (g : QueuedCountry → QueuedCountry)
    (h : ∀ q, (g q).countryId = q.countryId) :
    (l.map g).map QueuedCountry.countryId = l.map QueuedCountry.countryId := by
  induction l with
  | nil => rfl
  | cons q l ih => simp [h, ih]

theorem inv_initialState (v : Int) : Inv (initialState v) :=
  { nodupQueue := by simp [initialState, queueIds]
    nodupFailed := by simp [initialState]
    disjointQF := by simp [initialState]
    sortedReg := fun _ => List.Pairwise.nil }

theorem inv_downloadCountry (s : StorageState) (id : TCountryId) (o : MapOptions)
    (h : Inv s) : Inv (DownloadCountry s id o) := by
  rw [DownloadCountry]
  split
  · exact h
  · split
    · refine ⟨?_, h.nodupFailed, ?_, h.sortedReg⟩
      · show ((s.queue.map _).map QueuedCountry.countryId).Nodup
        rw [queueIds_map_preserving]
        · exact h.nodupQueue
        · intro q
          split <;> rfl
      · intro q hq
        rcases List.mem_map.mp hq with ⟨q0, hq0, rfl⟩
        show (if q0.countryId = id then
            ({ q0 with options :=
              q0.options.union (NormalizeDownloadFileSet s id o) } : QueuedCountry)
          else q0).countryId ∉ s.failedCountries
        have hcid : (if q0.countryId = id then
            ({ q0 with options :=
              q0.options.union (NormalizeDownloadFileSet s id o) } : QueuedCountry)
          else q0).countryId = q0.countryId := by
          split <;> rfl
        rw [hcid]
        exact h.disjointQF q0 hq0
    · rename_i hnz hnin
      have hid : id ∉ queueIds s := fun hm => hnin ((isCountryInQueue_iff s id).mpr hm)
      refine ⟨?_, h.nodupFailed.erase id, ?_, h.sortedReg⟩
      · show ((s.queue ++ [_]).map QueuedCountry.countryId).Nodup
        rw [List.map_append, List.nodup_append]
        refine ⟨h.nodupQueue, by simp, ?_⟩
        intro x hx hx2
        simp at hx2
        subst hx2
        exact hid hx
      · intro q hq
        rcases List.mem_append.mp hq with hq | hq
        · intro hmem
          exact h.disjointQF q hq (List.mem_of_mem_erase hmem)
        · simp at hq
          subst hq
          intro hmem
          rw [h.nodupFailed.mem_erase_iff] at hmem
          exact hmem.1 rfl

theorem inv_deleteFromDownloader (s : StorageState) (id : TCountryId) (h : Inv s) :
    Inv (DeleteFromDownloader s id) := by
  refine ⟨?_, h.nodupFailed, ?_, h.sortedReg⟩
  · show ((s.queue.filter _).map QueuedCountry.countryId).Nodup
    exact List.Nodup.sublist
      (List.Sublist.map QueuedCountry.countryId (List.filter_sublist s.queue))
      h.nodupQueue
  · intro q hq
    exact h.disjointQF q (List.mem_of_mem_filter hq)

theorem inv_deleteCountryFiles (s : StorageState) (id : TCountryId) (o : MapOptions)
    (h : Inv s) : Inv (DeleteCountryFiles s id o) := by
  refine ⟨h.nodupQueue, h.nodupFailed, h.disjointQF, ?_⟩
  intro i
  show (if i = id then deleteOptionsFromList o (s.localFiles i)
    else s.localFiles i).Pairwise _
  split
  · exact pairwise_deleteOptionsFromList o _ (h.sortedReg i)
  · exact h.sortedReg i

theorem inv_deleteCountry (s : StorageState) (id : TCountryId) (o : MapOptions)
    (h : Inv s) : Inv (DeleteCountry s id o) :=
  inv_deleteCountryFiles _ _ _ (inv_deleteFromDownloader s id h)

theorem inv_fileFinished (s : StorageState) (b : Bool) (h : Inv s) :
    Inv (OnMapFileDownloadFinished s b) := by
  rw [OnMapFileDownloadFinished]
  split
  · exact h
  · rename_i q rest hq
    have hnd : (queueIds s).Nodup := h.nodupQueue
    rw [queueIds, hq] at hnd
    simp only [List.map_cons, List.nodup_cons] at hnd
    obtain ⟨hqnot, hndrest⟩ := hnd
    split
    · split
      · refine ⟨?_, h.nodupFailed, ?_, h.sortedReg⟩
        · show ((_ :: rest).map QueuedCountry.countryId).Nodup
          simp only [List.map_cons]
          exact List.nodup_cons.mpr ⟨hqnot, hndrest⟩
        · intro r hr
          rcases List.mem_cons.mp hr with rfl | hr
          · exact h.disjointQF q (by rw [hq]; exact List.mem_cons_self q rest)
          · exact h.disjointQF r (by rw [hq]; exact List.mem_cons_of_mem q hr)
      · rw [OnMapDownloadFinishedSuccess]
        refine ⟨hndrest, h.nodupFailed, ?_, ?_⟩
        · intro r hr
          exact h.disjointQF r (by rw [hq]; exact List.mem_cons_of_mem q hr)
        · intro i
          show (if i = q.countryId then insertByVersion _ (s.localFiles i)
            else s.localFiles i).Pairwise _
          split
          · exact pairwise_insertByVersion _ _ (h.sortedReg i)
          · exact h.sortedReg i
    · refine ⟨hndrest, nodup_insertId h.nodupFailed, ?_, h.sortedReg⟩
      intro r hr hmem
      rcases mem_insertId.mp hmem with heq | hmem2
      · apply hqnot
        rw [← heq]
        exact List.mem_map.mpr ⟨r, hr, rfl⟩
      · exact h.disjointQF r (by rw [hq]; exact List.mem_cons_of_mem q hr) hmem2

theorem inv_registerFiles (s : StorageState) (id : TCountryId) (f : LocalCountryFile)
    (h : Inv s) : Inv (RegisterCountryFiles s id f) := by
  refine ⟨h.nodupQueue, h.nodupFailed, h.disjointQF, ?_⟩
  intro i
  show (if i = id then insertByVersion f (s.localFiles i)
    else s.localFiles i).Pairwise _
  split
  · exact pairwise_insertByVersion f _ (h.sortedReg i)
  · exact h.sortedReg i

theorem inv_registerFake (s : StorageState) (f : LocalCountryFile) (h : Inv s) :
    Inv (RegisterFakeCountryFiles s f) :=
  ⟨h.nodupQueue, h.nodupFailed, h.disjointQF, h.sortedReg⟩

theorem inv_clear (s : StorageState) (h : Inv s) : Inv (Clear s) :=
  ⟨by simp [queueIds, Clear], h.nodupFailed, by simp [Clear],
    fun _ => List.Pairwise.nil⟩

theorem inv_step {s s' : StorageState} (h : Inv s) (hs : Step s s') : Inv s' := by
  cases hs with
  | download id o => exact inv_downloadCountry s id o h
  | removeFromDownloader id => exact inv_deleteFromDownloader s id h
  | deleteCountry id o => exact inv_deleteCountry s id o h
  | fileFinished b => exact inv_fileFinished s b h
  | registerFiles id f => exact inv_registerFiles s id f h
  | registerFake f => exact inv_registerFake s f h
  | clearAll => exact inv_clear s h

theorem reachable_inv {s : StorageState} (h : Reachable s) : Inv s := by
  induction h with
  | init v => exact inv_initialState v
  | step hr hs ih => exact inv_step ih hs

/-! Reachability of the sample states. -/

theorem wsOne_reachable : Reachable wsOne :=
  Reachable.step (Reachable.init 100) (Step.download _ "Algeria" MapOptions.mapOnly)

theorem wsTwo_reachable : Reachable wsTwo :=
  Reachable.step wsOne_reachable (Step.download _ "Andorra" MapOptions.mapOnly)

theorem wsFailed_reachable : Reachable wsFailed :=
  Reachable.step wsTwo_reachable (Step.fileFinished _ false)

theorem wsReg_reachable : Reachable wsReg :=
  Reachable.step (Reachable.init 100)
    (Step.registerFiles _ "Algeria_Central" sampleFileCentral)

theorem wsRegBoth_reachable : Reachable wsRegBoth :=
  Reachable.step wsReg_reachable
    (Step.registerFiles _ "Algeria_Coast" sampleFileCoast)

/-! The claims. -/

/-- C5: after every public operation the download queue and the failed set are
disjoint — no queued id is failed, and no failed id is queued. -/
theorem queue_failed_disjoint (s : StorageState) (h : Reachable s) :
    (∀ q ∈ s.queue, q.countryId ∉ s.failedCountries) ∧
    (∀ id ∈ s.failedCountries, id ∉ queueIds s) := by
  have hinv := reachable_inv h
  refine ⟨hinv.disjointQF, ?_⟩
  intro id hid hq
  rcases List.mem_map.mp hq with ⟨q, hqm, rfl⟩
  exact hinv.disjointQF q hqm hid

/-- C5 witness: the disjointness at a concrete reachable state whose queue and
failed set are both nonempty. -/
theorem queue_failed_disjoint_witness :
    (∀ q ∈ wsFailed.queue, q.countryId ∉ wsFailed.failedCountries) ∧
    (∀ id ∈ wsFailed.failedCountries, id ∉ queueIds wsFailed) :=
  queue_failed_disjoint wsFailed wsFailed_reachable

/-- C6: after every public operation at most one queued unit is the head
(actively downloading), and exactly one whenever `IsDownloadInProgress()`. -/
theorem single_active_download (s : StorageState) (h : Reachable s) :
    (s.queue.filter (fun x => IsCountryFirstInQueue s x.countryId)).length ≤ 1 ∧
    (IsDownloadInProgress s = true →
      (s.queue.filter (fun x => IsCountryFirstInQueue s x.countryId)).length = 1) := by
  have hinv := reachable_inv h
  cases hq : s.queue with
  | nil =>
    refine ⟨?_, ?_⟩
    · simp
    · intro hp
      rw [IsDownloadInProgress, hq] at hp
      simp at hp
  | cons q rest =>
    have hnd := hinv.nodupQueue
    rw [queueIds, hq, List.map_cons, List.nodup_cons] at hnd
    obtain ⟨hnot, _⟩ := hnd
    have hpred : ∀ x : QueuedCountry,
        IsCountryFirstInQueue s x.countryId = decide (q.countryId = x.countryId) := by
      intro x
      rw [IsCountryFirstInQueue, hq]
    have hfil : (q :: rest).filter (fun x => IsCountryFirstInQueue s x.countryId) = [q] := by
      rw [List.filter_congr (fun x _ => hpred x), List.filter_cons]
      have h2 : rest.filter (fun x => decide (q.countryId = x.countryId)) = [] := by
        rw [List.filter_eq_nil_iff]
        intro x hx hcid
        rw [decide_eq_true_eq] at hcid
        apply hnot
        rw [hcid]
        exact List.mem_map.mpr ⟨x, hx, rfl⟩
      rw [h2]
      simp
    rw [hfil]
    exact ⟨le_refl 1, fun _ => rfl⟩

/-- C6 witness: with two units queued, exactly the head is downloading. -/
theorem single_active_download_witness :
    (wsTwo.queue.filter (fun x => IsCountryFirstInQueue wsTwo x.countryId)).length = 1 :=
  (single_active_download wsTwo wsTwo_reachable).2 rfl

/-- C7: after every operation every registry list is strictly decreasing by
version — hence holds at most one entry per (id, version) — and
`GetLatestLocalFile` returns its head, which carries the newest version. -/
theorem registry_sorted_latest (s : StorageState) (id : TCountryId) (h : Reachable s) :
    (s.localFiles id).Pairwise (fun a b => b.version < a.version) ∧
    (s.localFiles id).Pairwise (fun a b => a.version ≠ b.version) ∧
    GetLatestLocalFile s id = (s.localFiles id).head? ∧
    (∀ f ∈ s.localFiles id, ∀ g, GetLatestLocalFile s id = some g →
      f.version ≤ g.version) := by
  have hs := (reachable_inv h).sortedReg id
  refine ⟨hs, List.Pairwise.imp (fun hab => by omega) hs, rfl, ?_⟩
  intro f hf g hg
  rw [GetLatestLocalFile] at hg
  cases hl : s.localFiles id with
  | nil =>
    rw [hl] at hf
    simp at hf
  | cons a l =>
    rw [hl] at hg
    simp only [List.head?_cons, Option.some_inj] at hg
    subst hg
    rw [hl] at hf hs
    rcases List.mem_cons.mp hf with rfl | hf
    · exact le_refl _
    · have := (List.pairwise_cons.mp hs).1 f hf
      omega

/-- C7 witness: the registry invariant at a concrete reachable state with two
registered files. -/
theorem registry_sorted_latest_witness :
    (wsRegBoth.localFiles "Algeria_Central").Pairwise (fun a b => b.version < a.version) ∧
    (wsRegBoth.localFiles "Algeria_Central").Pairwise (fun a b => a.version ≠ b.version) ∧
    GetLatestLocalFile wsRegBoth "Algeria_Central" =
      (wsRegBoth.localFiles "Algeria_Central").head? ∧
    (∀ f ∈ wsRegBoth.localFiles "Algeria_Central", ∀ g,
      GetLatestLocalFile wsRegBoth "Algeria_Central" = some g →
      f.version ≤ g.version) :=
  registry_sorted_latest wsRegBoth "Algeria_Central" wsRegBoth_reachable

/-- C4: when a file download of the head unit fails, the whole unit fails with
no intra-unit retry: it leaves the queue, its id joins the failed set, and the
next queued unit becomes the active download. -/
theorem fileFailure_failsWholeUnit (s : StorageState) (q : QueuedCountry)
    (rest : List QueuedCountry) (hq : s.queue = q :: rest)
    (hnd : (queueIds s).Nodup) :
    (OnMapFileDownloadFinished s false).queue = rest ∧
    q.countryId ∈ (OnMapFileDownloadFinished s false).failedCountries ∧
    q.countryId ∉ queueIds (OnMapFileDownloadFinished s false) ∧
    ∀ r rs, rest = r :: rs →
      IsDownloadInProgress (OnMapFileDownloadFinished s false) = true ∧
      GetCurrentDownloadingCountryIndex (OnMapFileDownloadFinished s false) =
        r.countryId := by
  have hres : OnMapFileDownloadFinished s false =
      { s with
        queue := rest
        failedCountries := insertId q.countryId s.failedCountries
        countryProgress := (0, 0) } := by
    unfold OnMapFileDownloadFinished
    rw [hq]
    rfl
  rw [queueIds, hq, List.map_cons, List.nodup_cons] at hnd
  obtain ⟨hnot, _⟩ := hnd
  rw [hres]
  refine ⟨rfl, ?_, ?_, ?_⟩
  · exact mem_insertId.mpr (Or.inl rfl)
  · exact hnot
  · intro r rs hrest
    subst hrest
    exact ⟨rfl, rfl⟩

/-- C4 witness: failing the head of a two-unit queue removes it, marks it
failed, and promotes the second unit to the active download. -/
theorem fileFailure_failsWholeUnit_witness :
    (OnMapFileDownloadFinished wsTwo false).queue =
      [⟨"Andorra", MapOptions.mapOnly, MapOptions.mapOnly, 0⟩] ∧
    IsDownloadInProgress (OnMapFileDownloadFinished wsTwo false) = true ∧
    GetCurrentDownloadingCountryIndex (OnMapFileDownloadFinished wsTwo false) =
      "Andorra" :=
  have h := fileFailure_failsWholeUnit wsTwo
    ⟨"Algeria", MapOptions.mapOnly, MapOptions.mapOnly, 0⟩
    [⟨"Andorra", MapOptions.mapOnly, MapOptions.mapOnly, 0⟩] rfl (by decide)
  ⟨h.1, (h.2.2.2 _ [] rfl).1, (h.2.2.2 _ [] rfl).2⟩

/-- C1: `IsNodeDownloaded(id)` is true iff `id` is in the catalog and every
leaf of the subtree under it has a local version whose `MapOptions` include
`Map`; it is false for any id outside the catalog — in particular for unknown
strings and for fake units (user-custom maps, World, WorldCoasts), whose
files live only in the fake registry. -/
theorem isNodeDownloaded_iff_leaves (cat : Country) (s : StorageState)
    (id : TCountryId) :
    (IsNodeDownloaded cat s id = true ↔
      cat.contains id = true ∧
        ∀ l ∈ leavesUnder cat id, ∃ f ∈ s.localFiles l, f.hasMap = true) ∧
    (cat.contains id = false → IsNodeDownloaded cat s id = false) := by
  have hsome := Country.contains_eq_find_isSome cat id
  refine ⟨?_, ?_⟩
  · unfold IsNodeDownloaded leavesUnder
    cases hf : cat.find id with
    | none =>
      rw [hf] at hsome
      simp [hsome]
    | some t =>
      rw [hf] at hsome
      simp only [hsome, Option.isSome_some, true_and]
      rw [List.all_eq_true]
      constructor
      · intro h l hl
        have h2 := h l hl
        rw [hasDownloadedMap, List.any_eq_true] at h2
        simpa using h2
      · intro h l hl
        rw [hasDownloadedMap, List.any_eq_true]
        simpa using h l hl
  · intro hc
    rw [hc] at hsome
    unfold IsNodeDownloaded
    cases hf : cat.find id with
    | none => rfl
    | some t =>
      rw [hf] at hsome
      simp at hsome

/-- C1 witness: with both Algeria leaves on disk with their map files, the
expandable Algeria node is downloaded, and a fake unit on disk (World) is not. -/
theorem isNodeDownloaded_iff_leaves_witness :
    IsNodeDownloaded sampleCatalog wsRegBoth "Algeria" = true ∧
    IsNodeDownloaded sampleCatalog
      (RegisterFakeCountryFiles wsRegBoth ⟨"maps", "World", 100, true, false⟩)
      "World" = false :=
  ⟨(isNodeDownloaded_iff_leaves sampleCatalog wsRegBoth "Algeria").1.mpr
      (by decide),
    (isNodeDownloaded_iff_leaves sampleCatalog
      (RegisterFakeCountryFiles wsRegBoth ⟨"maps", "World", 100, true, false⟩)
      "World").2 (by decide)⟩

/-- C3 counterexample: with the map file already downloaded and current,
requesting CarRouting alone yields a normalized set that does not include Map,
refuting the claim that Map is included whenever CarRouting is requested. -/
theorem normalizeDownloadFileSet_counterexample :
    MapOptions.carRoutingOnly.carRouting = true ∧
    (NormalizeDownloadFileSet cexState "Algeria_Central"
      MapOptions.carRoutingOnly).map = false := by
  constructor
  · rfl
  · decide

/-- C3 (amended): the normalized set includes Map whenever CarRouting is
requested and the map file is not already on disk at the current data version,
and it excludes every option already on disk at the current data version. -/
theorem normalizeDownloadFileSet_amended (s : StorageState) (id : TCountryId)
    (opts : MapOptions) :
    (opts.carRouting = true → optionUpToDate s id MapOptions.mapOnly = false →
      (NormalizeDownloadFileSet s id opts).map = true) ∧
    (optionUpToDate s id MapOptions.mapOnly = true →
      (NormalizeDownloadFileSet s id opts).map = false) ∧
    (optionUpToDate s id MapOptions.carRoutingOnly = true →
      (NormalizeDownloadFileSet s id opts).carRouting = false) := by
  obtain ⟨m, c⟩ := opts
  unfold NormalizeDownloadFileSet
  cases m <;> cases c <;>
    cases hm : optionUpToDate s id MapOptions.mapOnly <;>
    cases hc : optionUpToDate s id MapOptions.carRoutingOnly <;>
    simp [hm, hc]

/-- C3 witness: on a fresh storage, requesting CarRouting pulls in Map. -/
theorem normalizeDownloadFileSet_amended_witness :
    (NormalizeDownloadFileSet (initialState 100) "Algeria"
      MapOptions.carRoutingOnly).map = true :=
  (normalizeDownloadFileSet_amended (initialState 100) "Algeria"
    MapOptions.carRoutingOnly).1 rfl rfl

/-- Every status other than Unknown has reporting precedence at most that of
Downloading. -/
theorem statusPriority_le_five (st : TStatus) (h : st ≠ TStatus.Unknown) :
    statusPriority st ≤ 5 := by
  cases st <;> simp_all [statusPriority]

/-- C2: for an expandable interior node the reported status is the aggregation
of its leaves' statuses — OnDisk iff every leaf is OnDisk, Downloading when
some leaf is Downloading, and in general a leaf status of the highest
reporting precedence (Downloading > InQueue > DownloadFailed > OutOfDate >
NotDownloaded > OnDisk). -/
theorem nodeStatus_aggregates (cat : Country) (s : StorageState) (id : TCountryId)
    (i : TCountryId) (c : Country) (cs : List Country)
    (hf : cat.find id = some (.mk i (c :: cs))) :
    (NodeStatus cat s id = TStatus.OnDisk ↔
      ∀ st ∈ (Country.mk i (c :: cs)).leaves.map (CountryStatusEx cat s),
        st = TStatus.OnDisk) ∧
    (TStatus.Downloading ∈
        (Country.mk i (c :: cs)).leaves.map (CountryStatusEx cat s) →
      NodeStatus cat s id = TStatus.Downloading) ∧
    NodeStatus cat s id ∈
      (Country.mk i (c :: cs)).leaves.map (CountryStatusEx cat s) ∧
    (∀ st ∈ (Country.mk i (c :: cs)).leaves.map (CountryStatusEx cat s),
      statusPriority st ≤ statusPriority (NodeStatus cat s id)) := by
  set sts := (Country.mk i (c :: cs)).leaves.map (CountryStatusEx cat s) with hsts
  have hagg : NodeStatus cat s id = aggregateStatuses sts := by
    unfold NodeStatus
    rw [hf]
  have hne : sts ≠ [] := by
    rw [hsts]
    intro h0
    rw [List.map_eq_nil_iff] at h0
    exact Country.leaves_ne_nil _ h0
  have hnu : TStatus.Unknown ∉ sts := by
    intro hu
    rw [hsts] at hu
    rcases List.mem_map.mp hu with ⟨l, hl, he⟩
    have hcont : cat.contains l = true :=
      Country.find_contains cat (Country.mk i (c :: cs)) id l hf
        (Country.leaves_mem_contains _ l hl)
    exact countryStatusEx_ne_unknown cat s l hcont he
  have hub : ∀ st ∈ sts, statusPriority st ≤ statusPriority (aggregateStatuses sts) :=
    fun st hst => statusPriority_mem_le_foldl sts TStatus.OnDisk st hst
  have hmemOr : aggregateStatuses sts = TStatus.OnDisk ∨ aggregateStatuses sts ∈ sts :=
    foldl_maxStatus_mem sts TStatus.OnDisk
  have hfwd : aggregateStatuses sts = TStatus.OnDisk →
      ∀ st ∈ sts, st = TStatus.OnDisk := by
    intro ha st hst
    have h1 := hub st hst
    rw [ha] at h1
    simp only [statusPriority] at h1
    refine statusPriority_injective st TStatus.OnDisk ?_
    have h2 : statusPriority st = 0 := Nat.le_zero.mp h1
    rw [h2]
    rfl
  have hmem : aggregateStatuses sts ∈ sts := by
    rcases hmemOr with h | h
    · have hall := hfwd h
      rw [h]
      cases hcase : sts with
      | nil => exact absurd hcase hne
      | cons a l =>
        have ha : a = TStatus.OnDisk :=
          hall a (by rw [hcase]; exact List.mem_cons_self a l)
        rw [← ha]
        exact List.mem_cons_self a l
    · exact h
  have hdl : TStatus.Downloading ∈ sts →
      aggregateStatuses sts = TStatus.Downloading := by
    intro hd
    have h5 : 5 ≤ statusPriority (aggregateStatuses sts) := by
      have h6 := hub _ hd
      simpa [statusPriority] using h6
    have hneU : aggregateStatuses sts ≠ TStatus.Unknown :=
      fun he => hnu (he ▸ hmem)
    have hle : statusPriority (aggregateStatuses sts) ≤ 5 :=
      statusPriority_le_five _ hneU
    refine statusPriority_injective _ _ ?_
    have heq : statusPriority (aggregateStatuses sts) = 5 := le_antisymm hle h5
    rw [heq]
    rfl
  have hbwd : (∀ st ∈ sts, st = TStatus.OnDisk) →
      aggregateStatuses sts = TStatus.OnDisk := by
    intro hall
    rcases hmemOr with h | h
    · exact h
    · exact hall _ h
  rw [hagg]
  exact ⟨⟨hfwd, hbwd⟩, hdl, hmem, hub⟩

/-- C2 witness: with the leaf Algeria_Central downloading, the expandable
Algeria group reports Downloading. -/
theorem nodeStatus_aggregates_witness :
    NodeStatus sampleCatalog wsLeafDownloading "Algeria" = TStatus.Downloading :=
  (nodeStatus_aggregates sampleCatalog wsLeafDownloading "Algeria" "Algeria"
    (.mk "Algeria_Central" []) [.mk "Algeria_Coast" []] rfl).2.1 (by decide)

/-- C10: `GetDownloadedChildren(parent)` adds a direct child's own id when the
child contains two or more downloaded mwms, adds the single mwm id when it
contains exactly one, contributes nothing for children without downloaded
mwms, and every returned id is a catalog id — never a fake unit. -/
theorem getDownloadedChildren_spec (cat : Country) (s : StorageState)
    (parent : TCountryId) (i : TCountryId) (cs : List Country)
    (hf : cat.find parent = some (.mk i cs)) :
    (∀ c ∈ cs, 2 ≤ (downloadedLeavesIn s c).length →
      c.cid ∈ GetDownloadedChildren cat s parent) ∧
    (∀ c ∈ cs, ∀ x, downloadedLeavesIn s c = [x] →
      x ∈ GetDownloadedChildren cat s parent) ∧
    (∀ x ∈ GetDownloadedChildren cat s parent, ∃ c ∈ cs,
      (x = c.cid ∧ 2 ≤ (downloadedLeavesIn s c).length) ∨
        downloadedLeavesIn s c = [x]) ∧
    (∀ x ∈ GetDownloadedChildren cat s parent, cat.contains x = true) := by
  have hg : GetDownloadedChildren cat s parent = cs.flatMap (downloadedChildEntry s) := by
    unfold GetDownloadedChildren
    rw [hf]
    rfl
  have hcontains : ∀ c ∈ cs, ∀ x, c.contains x = true → cat.contains x = true := by
    intro c hc x hx
    refine Country.find_contains cat (Country.mk i cs) parent x hf ?_
    rw [Country.contains, Bool.or_eq_true]
    exact Or.inr (forestContains_of_mem cs c x hc hx)
  have hchar : ∀ x ∈ GetDownloadedChildren cat s parent, ∃ c ∈ cs,
      (x = c.cid ∧ 2 ≤ (downloadedLeavesIn s c).length) ∨
        downloadedLeavesIn s c = [x] := by
    intro x hx
    rw [hg] at hx
    rcases List.mem_flatMap.mp hx with ⟨c, hc, hentry⟩
    refine ⟨c, hc, ?_⟩
    rw [downloadedChildEntry] at hentry
    cases hdl : downloadedLeavesIn s c with
    | nil =>
      rw [hdl] at hentry
      simp at hentry
    | cons y l =>
      cases l with
      | nil =>
        rw [hdl] at hentry
        simp at hentry
        right
        rw [hentry]
      | cons z l2 =>
        rw [hdl] at hentry
        simp at hentry
        left
        refine ⟨hentry, ?_⟩
        simp only [List.length_cons]
        omega
  refine ⟨?_, ?_, hchar, ?_⟩
  · intro c hc hlen
    rw [hg]
    refine List.mem_flatMap.mpr ⟨c, hc, ?_⟩
    rw [downloadedChildEntry]
    cases hdl : downloadedLeavesIn s c with
    | nil =>
      rw [hdl] at hlen
      simp at hlen
    | cons y l =>
      cases l with
      | nil =>
        rw [hdl] at hlen
        simp at hlen
      | cons z l2 => simp
  · intro c hc x hx
    rw [hg]
    refine List.mem_flatMap.mpr ⟨c, hc, ?_⟩
    rw [downloadedChildEntry, hx]
    simp
  · intro x hx
    rcases hchar x hx with ⟨c, hc, hcase⟩
    rcases hcase with ⟨rfl, _⟩ | hone
    · exact hcontains c hc c.cid (Country.contains_self c)
    · have hxl : x ∈ c.leaves := by
        have : x ∈ downloadedLeavesIn s c := by
          rw [hone]
          exact List.mem_cons_self x []
        rw [downloadedLeavesIn] at this
        exact List.mem_of_mem_filter this
      exact hcontains c hc x (Country.leaves_mem_contains c x hxl)

/-- C10 witness: with both Algeria leaves downloaded and Andorra absent, the
downloaded children of the root are exactly the Algeria group id. -/
theorem getDownloadedChildren_spec_witness :
    Country.cid (.mk "Algeria" [.mk "Algeria_Central" [], .mk "Algeria_Coast" []]) ∈
      GetDownloadedChildren sampleCatalog wsRegBoth "Countries" :=
  (getDownloadedChildren_spec sampleCatalog wsRegBoth "Countries" "Countries"
    [.mk "Algeria" [.mk "Algeria_Central" [], .mk "Algeria_Coast" []],
     .mk "Andorra" []] rfl).1
    (.mk "Algeria" [.mk "Algeria_Central" [], .mk "Algeria_Coast" []])
    (List.Mem.head _) (by decide)

/-- C9: `NotifyStatusChanged(id)` fires every subscribed status callback for
the id and for each ancestor up to the root, in the order self first then
root-ward (each consecutive pair is a child-to-parent step), and error
notifications fire only for the originating id. -/
theorem notifyStatusChanged_chain (cat : Country) (cbs : List Nat)
    (id : TCountryId) (e : ErrorCode) (p : List TCountryId)
    (hp : cat.pathTo id = some p) :
    (selfToRootChain cat id).head? = some id ∧
    (selfToRootChain cat id).getLast? = some cat.cid ∧
    List.Chain' (fun a b => cat.isParentOf b a = true) (selfToRootChain cat id) ∧
    (∀ cb n, (cb, n) ∈ NotifyStatusChanged cat cbs id ↔
      cb ∈ cbs ∧ n ∈ selfToRootChain cat id) ∧
    (∀ x ∈ NotifyError cbs id e, x.2.1 = id) := by
  obtain ⟨hh, hl, hch⟩ := Country.pathTo_spec cat id p hp
  have hchain : selfToRootChain cat id = p.reverse := by
    rw [selfToRootChain, hp]
  refine ⟨?_, ?_, ?_, ?_, ?_⟩
  · rw [hchain, List.head?_reverse]
    exact hl
  · rw [hchain, List.getLast?_reverse]
    exact hh
  · rw [hchain, List.chain'_reverse]
    exact hch
  · intro cb n
    rw [NotifyStatusChanged]
    constructor
    · intro hmem
      rcases List.mem_flatMap.mp hmem with ⟨n2, hn2, hcb⟩
      rcases List.mem_map.mp hcb with ⟨cb2, hcb2, he⟩
      cases he
      exact ⟨hcb2, hn2⟩
    · rintro ⟨hcb, hn⟩
      exact List.mem_flatMap.mpr ⟨n, hn, List.mem_map.mpr ⟨cb, hcb, rfl⟩⟩
  · intro x hx
    rcases List.mem_map.mp hx with ⟨cb, hcb, rfl⟩
    rfl

/-- C9 witness: notifying for the leaf Algeria_Central walks self, Algeria,
then the root. -/
theorem notifyStatusChanged_chain_witness :
    (selfToRootChain sampleCatalog "Algeria_Central").head? =
      some "Algeria_Central" ∧
    (selfToRootChain sampleCatalog "Algeria_Central").getLast? =
      some sampleCatalog.cid :=
  have h := notifyStatusChanged_chain sampleCatalog [0] "Algeria_Central"
    ErrorCode.NoError ["Countries", "Algeria", "Algeria_Central"] rfl
  ⟨h.1, h.2.1⟩

/-! Lemmas for the save/restore round trip. -/

theorem downloadCountry_localFiles (s : StorageState) (id : TCountryId)
    (o : MapOptions) : (DownloadCountry s id o).localFiles = s.localFiles := by
  rw [DownloadCountry]
  split
  · rfl
  · split <;> rfl

theorem downloadCountry_currentVersion (s : StorageState) (id : TCountryId)
    (o : MapOptions) : (DownloadCountry s id o).currentVersion = s.currentVersion := by
  rw [DownloadCountry]
  split
  · rfl
  · split <;> rfl

theorem normalizeDownloadFileSet_congr (s t : StorageState) (id : TCountryId)
    (o : MapOptions) (h1 : t.localFiles = s.localFiles)
    (h2 : t.currentVersion = s.currentVersion) :
    NormalizeDownloadFileSet t id o = NormalizeDownloadFileSet s id o := by
  unfold NormalizeDownloadFileSet optionUpToDate GetLatestLocalFile
  rw [h1, h2]

theorem restoreDownloadQueue_cons (st : StorageState) (p : TCountryId × MapOptions)
    (l : List (TCountryId × MapOptions)) :
    RestoreDownloadQueue st (p :: l) =
      RestoreDownloadQueue (DownloadCountry st p.1 p.2) l := rfl

/-- Re-enqueuing a list of pairs whose ids are fresh and distinct appends
exactly the entries whose normalization is nonempty, with their normalized
options, preserving order. -/
theorem restore_fold_queue (s : StorageState) :
    ∀ (l : List (TCountryId × MapOptions)) (st : StorageState),
      st.localFiles = s.localFiles → st.currentVersion = s.currentVersion →
      (∀ p ∈ l, p.1 ∉ queueIds st) → (l.map Prod.fst).Nodup →
      (RestoreDownloadQueue st l).queue.map (fun q => (q.countryId, q.options)) =
        st.queue.map (fun q => (q.countryId, q.options)) ++
          l.filterMap (fun p =>
            if NormalizeDownloadFileSet s p.1 p.2 = MapOptions.nothing then none
            else some (p.1, NormalizeDownloadFileSet s p.1 p.2))
  | [], st, _, _, _, _ => by
    simp [RestoreDownloadQueue]
  | p :: l, st, hlf, hcv, hfresh, hnd => by
    rw [restoreDownloadQueue_cons]
    have hnorm : NormalizeDownloadFileSet st p.1 p.2 =
        NormalizeDownloadFileSet s p.1 p.2 :=
      normalizeDownloadFileSet_congr s st p.1 p.2 hlf hcv
    rw [List.map_cons, List.nodup_cons] at hnd
    obtain ⟨hp1, hndl⟩ := hnd
    by_cases hz : NormalizeDownloadFileSet s p.1 p.2 = MapOptions.nothing
    · have hdc : DownloadCountry st p.1 p.2 = st := by
        rw [DownloadCountry, hnorm, if_pos hz]
      rw [hdc]
      rw [restore_fold_queue s l st hlf hcv
        (fun p2 h2 => hfresh p2 (List.mem_cons_of_mem p h2)) hndl]
      simp [List.filterMap_cons, hz]
    · have hnin : ¬ IsCountryInQueue st p.1 = true := fun hin =>
        hfresh p (List.mem_cons_self p l) ((isCountryInQueue_iff st p.1).mp hin)
      have hdc : DownloadCountry st p.1 p.2 =
          { st with
            queue := st.queue ++
              [⟨p.1, NormalizeDownloadFileSet s p.1 p.2,
                firstFileOf (NormalizeDownloadFileSet s p.1 p.2), 0⟩]
            failedCountries := st.failedCountries.erase p.1
            countryProgress :=
              if st.queue.isEmpty then (0, 0) else st.countryProgress } := by
        rw [DownloadCountry, hnorm, if_neg hz, if_neg hnin]
      rw [hdc]
      rw [restore_fold_queue s l
        { st with
          queue := st.queue ++
            [⟨p.1, NormalizeDownloadFileSet s p.1 p.2,
              firstFileOf (NormalizeDownloadFileSet s p.1 p.2), 0⟩]
          failedCountries := st.failedCountries.erase p.1
          countryProgress :=
            if st.queue.isEmpty then (0, 0) else st.countryProgress }
        hlf hcv ?_ hndl]
      · rw [List.map_append]
        simp [List.filterMap_cons, hz]
      · intro p2 h2
        show p2.1 ∉ (st.queue ++ [_]).map QueuedCountry.countryId
        rw [List.map_append, List.mem_append]
        rintro (hmem | hmem)
        · exact hfresh p2 (List.mem_cons_of_mem p h2) hmem
        · simp at hmem
          apply hp1
          rw [← hmem]
          exact List.mem_map.mpr ⟨p2, h2, rfl⟩

/-- C8: saving the queue, clearing it, and restoring reproduces the queue
contents and order up to the enqueue normalization — every unit re-enters with
its normalized options and units whose normalization is empty (already
current) are elided. -/
theorem saveRestore_roundTrip (s : StorageState) (h : Reachable s) :
    (RestoreDownloadQueue (clearQueue s) (SaveDownloadQueue s)).queue.map
        (fun q => (q.countryId, q.options)) =
      (SaveDownloadQueue s).filterMap (fun p =>
        if NormalizeDownloadFileSet s p.1 p.2 = MapOptions.nothing then none
        else some (p.1, NormalizeDownloadFileSet s p.1 p.2)) := by
  have hnd : (queueIds s).Nodup := (reachable_inv h).nodupQueue
  have hmap : (SaveDownloadQueue s).map Prod.fst = queueIds s := by
    rw [SaveDownloadQueue, queueIds, List.map_map]
    rfl
  have hfold := restore_fold_queue s (SaveDownloadQueue s) (clearQueue s) rfl rfl
    (fun p hp => by simp [clearQueue, queueIds]) (by rw [hmap]; exact hnd)
  simpa [clearQueue] using hfold

/-- C8 witness: the round trip at a concrete reachable state with two queued
units, neither of which is current on disk. -/
theorem saveRestore_roundTrip_witness :
    (RestoreDownloadQueue (clearQueue wsTwo) (SaveDownloadQueue wsTwo)).queue.map
        (fun q => (q.countryId, q.options)) =
      (SaveDownloadQueue wsTwo).filterMap (fun p =>
        if NormalizeDownloadFileSet wsTwo p.1 p.2 = MapOptions.nothing then none
        else some (p.1, NormalizeDownloadFileSet wsTwo p.1 p.2)) :=
  saveRestore_roundTrip wsTwo wsTwo_reachable

end storage
